import Mathlib

/-!
Shallow embedding of `src/ppcan.py`, a live CAN-bus terminal monitor.

The Python program keeps a global table `canData` mapping a CAN arbitration
id to the latest decoded record (`CanMsg`), updated by an ingestion thread
(`receiveCan`) and rendered by a curses loop (`pcanCursesGui`).  Times are
`time.time()` seconds; we model them as rationals.  Python dictionaries are
modelled as insertion-ordered association lists with unique keys.
-/

namespace Ppcan

/-- A numeric decoded value as produced by the caneton decoder: a Python
`int` or a Python `float` (modelled as a rational). -/
inductive NumVal where
  | i (n : ℤ)
  | f (q : ℚ)
deriving DecidableEq, Repr

/-- Python `int()` applied to a float truncates toward zero. -/
def pyTrunc (q : ℚ) : ℤ := if 0 ≤ q then ⌊q⌋ else ⌈q⌉

/-- Python `int(value)` for a numeric signal value. -/
def NumVal.pyInt : NumVal → ℤ
  | .i n => n
  | .f q => pyTrunc q

/-- The value stored in a `CanSignal` after enum substitution: still numeric,
or replaced by an enum display string. -/
inductive SigVal where
  | num (v : NumVal)
  | str (s : String)
deriving DecidableEq, Repr

/-- The `CanSignal.decodeEnums` step: if the signal carries a (truthy, i.e. nonempty)
enum table and the base-10 string of `int(value)` is one of its keys, the
value is replaced by the table's display string; otherwise it is kept. -/
def decodeEnumsVal (enums : Option (List (String × String))) (v : NumVal) : SigVal :=
  match enums with
  | none => .num v
  | some table =>
    if table.isEmpty then .num v
    else
      match table.lookup (toString v.pyInt) with
      | some disp => .str disp
      | none => .num v

/-- The `CanSignal` object: `raw` keeps the constructor's numeric value,
`value` is the (possibly enum-substituted) display value. -/
structure CanSignal where
  name : String
  value : SigVal
  raw : NumVal
  unit : Option String
  enums : Option (List (String × String))
deriving DecidableEq, Repr

/-- The `CanSignal.__init__` constructor: stores the fields and runs `decodeEnums`. -/
def CanSignal.make (name : String) (value : NumVal) (unit : Option String)
    (enums : Option (List (String × String))) : CanSignal :=
  { name := name, value := decodeEnumsVal enums value, raw := value,
    unit := unit, enums := enums }

/-- The `CanMsg` record held in the live state table.  `time` is the single
timestamp field of the Python class (seconds); `delta` is milliseconds. -/
structure CanMsg where
  id : ℕ
  data : List ℕ
  name : Option String
  signals : List CanSignal
  delta : ℚ
  time : ℚ
  count : ℕ
deriving DecidableEq, Repr

/-- The `CanMsg.__init__` constructor at wall-clock time `now`. -/
def CanMsg.make (id : ℕ) (data : List ℕ) (name : Option String)
    (signals : List CanSignal) (now : ℚ) : CanMsg :=
  { id := id, data := data, name := name, signals := signals,
    delta := 0, time := now, count := 1 }

/-- The `CanMsg.update` method at wall-clock time `now`: replaces payload and signals,
recomputes `delta` in milliseconds, advances `time`, increments `count`. -/
def CanMsg.update (m : CanMsg) (data : List ℕ) (signals : List CanSignal)
    (now : ℚ) : CanMsg :=
  { m with
    data := data, signals := signals,
    delta := (now - m.time) * 1000, time := now, count := m.count + 1 }

/-- The DBC JSON resource, abstracted to the only access path the ingestion
loop uses: `CanDbcJson.signalEnums` (the `enums` entry of a signal, or
`none`). -/
structure CanDbcJson where
  signalEnums : ℕ → String → Option (List (String × String))

/-- One (non-`None`) signal dict of a caneton decode result. -/
structure RawSignal where
  name : String
  value : NumVal
  unit : Option String
deriving DecidableEq, Repr

/-- The caneton decode result dict.  The `signals` list may contain `None`
entries (caneton emits `None` for non-selected multiplexed signals, and the
fallback dict is built with `signals = [None]`). -/
structure DecodedMsg where
  id : ℕ
  name : Option String
  raw_data : List ℕ
  signals : List (Option RawSignal)
deriving Repr

/-- One frame received from the bus. -/
structure Frame where
  arbitration_id : ℕ
  dlc : ℕ
  data : List ℕ
deriving DecidableEq, Repr

/-- The exceptions `receiveCan` catches around `caneton.message_decode`. -/
inductive DecodeError where
  | messageNotFound
  | decodingError
deriving DecidableEq, Repr

/-- The `canetonSignalsToObj` helper: drops falsy (`None`) entries and builds a
`CanSignal` per remaining raw signal, looking the enum table up in the DBC. -/
def canetonSignalsToObj (msgId : ℕ) (rawSignals : List (Option RawSignal))
    (dbcJson : CanDbcJson) : List CanSignal :=
  (rawSignals.filterMap id).map
    (fun s => CanSignal.make s.name s.value s.unit (dbcJson.signalEnums msgId s.name))

/-- The fallback dict `receiveCan` builds when decoding raises
`MessageNotFound` or `DecodingError`. -/
def fallbackDecoded (msg : Frame) : DecodedMsg :=
  { id := msg.arbitration_id, name := none, raw_data := msg.data, signals := [none] }

/-- The `try/except` around `caneton.message_decode`. -/
def decodeOrFallback (result : Except DecodeError DecodedMsg) (msg : Frame) : DecodedMsg :=
  match result with
  | .ok d => d
  | .error _ => fallbackDecoded msg

/-- The table mutation done by `receiveCan` while holding `canDataLock`:
insert a fresh `CanMsg` for an unseen arbitration id, otherwise update the
existing record in place. -/
def applyFrame (table : List (ℕ × CanMsg)) (arbId : ℕ) (decoded : DecodedMsg)
    (dbcJson : CanDbcJson) (now : ℚ) : List (ℕ × CanMsg) :=
  match table.lookup arbId with
  | none =>
    table ++ [(arbId, CanMsg.make decoded.id decoded.raw_data decoded.name
      (canetonSignalsToObj decoded.id decoded.signals dbcJson) now)]
  | some _ =>
    table.map (fun kv =>
      if kv.1 = arbId then
        (kv.1, kv.2.update decoded.raw_data
          (canetonSignalsToObj decoded.id decoded.signals dbcJson) now)
      else kv)

/-- One iteration of the `receiveCan` loop body after `bus.recv()`:
decode (with fallback) and apply to the table. -/
def receiveCanStep (table : List (ℕ × CanMsg)) (msg : Frame)
    (result : Except DecodeError DecodedMsg) (dbcJson : CanDbcJson)
    (now : ℚ) : List (ℕ × CanMsg) :=
  applyFrame table msg.arbitration_id (decodeOrFallback result msg) dbcJson now

/-! ### Formatting (`CanMsg.__str__`, `CanSignal.__str__`) -/

/-- A string of `n` spaces. -/
def spaces (n : ℕ) : String := String.mk (List.replicate n ' ')

/-- Python `'{:w}'.format(s)` for a string argument: left-justified, never
truncated. -/
def ljust (s : String) (w : ℕ) : String := s ++ spaces (w - s.length)

/-- Python `'{:w}'` for a numeric argument (and `'{:>w}'`): right-justified. -/
def rjust (s : String) (w : ℕ) : String := spaces (w - s.length) ++ s

/-- Base-16 digits of `n`, most significant first (empty for 0). -/
def hexDigits (n : ℕ) : List ℕ :=
  if h : n = 0 then [] else hexDigits (n / 16) ++ [n % 16]
decreasing_by exact Nat.div_lt_self (Nat.pos_of_ne_zero h) (by norm_num)

/-- Value of a base-16 digit list (most significant first). -/
def hexVal (l : List ℕ) : ℕ := l.foldl (fun a d => a * 16 + d) 0

/-- Python `hex(n)` for nonnegative `n`: `0x` plus lowercase base-16 digits
(`0x0` for zero); `Nat.digitChar` yields lowercase `a`-`f`. -/
def hexRepr (n : ℕ) : String :=
  "0x" ++ (if n = 0 then "0" else String.mk ((hexDigits n).map Nat.digitChar))

/-- Uppercase base-16 digit character. -/
def hexCharUpper (n : ℕ) : Char :=
  if n = 10 then 'A' else if n = 11 then 'B' else if n = 12 then 'C'
  else if n = 13 then 'D' else if n = 14 then 'E' else if n = 15 then 'F'
  else Nat.digitChar n

/-- Numeric value of an uppercase base-16 digit character. -/
def hexCharUpperVal (c : Char) : ℕ :=
  if c = 'A' then 10 else if c = 'B' then 11 else if c = 'C' then 12
  else if c = 'D' then 13 else if c = 'E' then 14 else if c = 'F' then 15
  else c.toNat - '0'.toNat

/-- An ASCII decimal digit or uppercase `A`-`F`. -/
def isUpperHexDigit (c : Char) : Bool := c.isDigit || ('A' ≤ c && c ≤ 'F')

/-- One payload byte as `binascii.hexlify(..).upper()` renders it: exactly
two uppercase base-16 digit characters. -/
def byteHexUpper (b : ℕ) : String :=
  String.mk [hexCharUpper (b / 16), hexCharUpper (b % 16)]

/-- The `dataStr` of `CanMsg.__str__`: upper-case space-separated hex byte
pairs. -/
def payloadStr (data : List ℕ) : String :=
  String.intercalate (" ") (data.map byteHexUpper)

/-- The integer number of hundredths printed by `'{:.2f}'.format(q)`: the
value rounded to two decimal places. -/
def fixed2 (q : ℚ) : ℤ := round (q * 100)

/-- Two-character base-10 rendering of `k < 100`. -/
def twoDigits (k : ℕ) : String :=
  String.mk [Nat.digitChar (k / 10), Nat.digitChar (k % 10)]

/-- Rendering of `'{:.2f}'.format(q)`: optional sign, integer part, `.`, exactly two
decimal digits. -/
def renderFixed2 (q : ℚ) : String :=
  (if fixed2 q < 0 then ("-") else ("")) ++ toString ((fixed2 q).natAbs / 100)
    ++ "." ++ twoDigits ((fixed2 q).natAbs % 100)

/-- The `valueStr` of `CanSignal.__str__`: floats with two decimal places,
anything else via Python `str`. -/
def SigVal.pyStr : SigVal → String
  | .num (.i n) => toString n
  | .num (.f q) => renderFixed2 q
  | .str s => s

/-- The `CanSignal.__str__` line. -/
def CanSignal.str (s : CanSignal) : String :=
  " [sig] | " ++ ljust s.name 32 ++ " | " ++ ljust s.value.pyStr 33 ++ " "
    ++ rjust (s.unit.getD ("")) 8 ++ " |"

/-- The `CanMsg.__str__` rendering: the record line followed by one line per signal (and a
trailing newline only when there are signal lines). -/
def CanMsg.str (m : CanMsg) : String :=
  ljust (hexRepr m.id) 6 ++ " | " ++ ljust (m.name.getD ("")) 32 ++ " | "
    ++ ljust (payloadStr m.data) 42 ++ " | " ++ rjust (toString m.count) 7 ++ " | "
    ++ renderFixed2 m.time ++ " | " ++ rjust (renderFixed2 m.delta) 8
    ++ "\n" ++ String.intercalate ("\n") (m.signals.map CanSignal.str)
    ++ (if m.signals.isEmpty then "" else "\n")

/-! ### Rendering order (`pcanCursesGui` pad body) -/

/-- Python `sorted(canData.keys())`. -/
def sortedKeys (table : List (ℕ × CanMsg)) : List ℕ :=
  (table.map Prod.fst).insertionSort (· ≤ ·)

/-- The pad body built under the lock:
`''.join([str(canData[id]) for id in sorted(canData.keys())])`. -/
def renderBody (table : List (ℕ × CanMsg)) : String :=
  String.join ((sortedKeys table).map
    (fun id => ((table.lookup id).map CanMsg.str).getD ("")))

/-! ### Scroll state machine (`pcanCursesGui`) -/

/-- Key code `curses.KEY_DOWN`. -/
def keyDown : ℤ := 258
/-- Key code `curses.KEY_UP`. -/
def keyUp : ℤ := 259
/-- Key code `curses.KEY_LEFT`. -/
def keyLeft : ℤ := 260
/-- Key code `curses.KEY_RIGHT`. -/
def keyRight : ℤ := 261
/-- Key code `curses.KEY_NPAGE` (page down). -/
def keyNPage : ℤ := 338
/-- Key code `curses.KEY_PPAGE` (page up). -/
def keyPPage : ℤ := 339
/-- The fixed pad height (virtual content height) of `pcanCursesGui`. -/
def padHeight : ℤ := 5000

/-- The `if/elif` chain of `pcanCursesGui`: change applied to `padY` before
clamping (`32 = ord(' ')`). -/
def scrollDelta (key height : ℤ) : ℤ :=
  if key = keyDown then 1
  else if key = keyUp then -1
  else if key = keyRight ∨ key = keyNPage ∨ key = 32 then height
  else if key = keyLeft ∨ key = keyPPage then -height
  else 0

/-- Clamping `padY = max(0, min(padHeight-height, padY))`. -/
def clampPadY (height y : ℤ) : ℤ := max 0 (min (padHeight - height) y)

/-- One tick of the scroll state machine: apply the key's delta, then clamp. -/
def guiTick (height padY key : ℤ) : ℤ :=
  clampPadY height (padY + scrollDelta key height)

/-- Remap `key = ord('0') if key in badKeys else key` (status bar;
`badKeys = [-1, 0, ord(tab), ord(CR), ord(LF)]`). -/
def displayKey (key : ℤ) : ℤ :=
  if key = -1 ∨ key = 0 ∨ key = 9 ∨ key = 13 ∨ key = 10 then 48 else key

/-- The loop condition `key != ord('q') and key != 27`. -/
def guiContinue (key : ℤ) : Bool :=
  if key = 113 ∨ key = 27 then false else true

/-! ### Interleaving model of `canDataLock`

`receiveCan` mutates a record's payload and signal list as two separate
assignments (`CanMsg.update`) inside `canDataLock.acquire()/release()`;
`pcanCursesGui` builds its snapshot of the table inside the same lock.  We
model one record's payload/signal pair under an arbitrary interleaving of
the two threads, each thread taking one atomic micro-step at a time, with
the lock as a three-valued owner. -/

/-- Program counter of the ingestion (writer) thread inside its critical
section: `self.data = ...` and `self.signals = ...` are separate
statements. -/
inductive WriterPc where
  | idle
  | writeData (d : List ℕ) (sig : List CanSignal)
  | writeSignals (sig : List CanSignal)
  | unlock
deriving DecidableEq

/-- Program counter of the render (reader) thread around its snapshot. -/
inductive ReaderPc where
  | idle
  | copy
  | unlock
deriving DecidableEq

/-- Who holds `canDataLock`. -/
inductive LockOwner where
  | free
  | writer
  | reader
deriving DecidableEq

/-- Interleaving state: one record's payload/signal pair, the lock owner,
both thread program counters, the updates the writer still has to apply,
and the pairs the reader has observed so far. -/
structure ConcState where
  data : List ℕ
  signals : List CanSignal
  lock : LockOwner
  wpc : WriterPc
  rpc : ReaderPc
  pending : List (List ℕ × List CanSignal)
  observed : List (List ℕ × List CanSignal)

/-- One interleaving micro-step.  Acquisition blocks while the lock is
held; writes and the snapshot copy happen only inside the critical
sections, exactly as in `receiveCan` and `pcanCursesGui`. -/
inductive ConcStep : ConcState → ConcState → Prop where
  | wAcquire (s : ConcState) (u : List ℕ × List CanSignal)
      (rest : List (List ℕ × List CanSignal)) :
      s.wpc = .idle → s.lock = .free → s.pending = u :: rest →
      ConcStep s { s with lock := .writer, wpc := .writeData u.1 u.2, pending := rest }
  | wData (s : ConcState) (d : List ℕ) (sig : List CanSignal) :
      s.wpc = .writeData d sig →
      ConcStep s { s with data := d, wpc := .writeSignals sig }
  | wSignals (s : ConcState) (sig : List CanSignal) :
      s.wpc = .writeSignals sig →
      ConcStep s { s with signals := sig, wpc := .unlock }
  | wRelease (s : ConcState) :
      s.wpc = .unlock →
      ConcStep s { s with lock := .free, wpc := .idle }
  | rAcquire (s : ConcState) :
      s.rpc = .idle → s.lock = .free →
      ConcStep s { s with lock := .reader, rpc := .copy }
  | rCopy (s : ConcState) :
      s.rpc = .copy →
      ConcStep s { s with observed := s.observed ++ [(s.data, s.signals)], rpc := .unlock }
  | rRelease (s : ConcState) :
      s.rpc = .unlock →
      ConcStep s { s with lock := .free, rpc := .idle }

/-- Initial state: a consistent initial pair, lock free, both threads idle,
`updates` still to be ingested, nothing observed. -/
def concInit (p : List ℕ × List CanSignal)
    (updates : List (List ℕ × List CanSignal)) : ConcState :=
  { data := p.1, signals := p.2, lock := .free, wpc := .idle, rpc := .idle,
    pending := updates, observed := [] }

/-- States reachable by interleaving the two threads from `concInit`. -/
def ConcReachable (p : List ℕ × List CanSignal)
    (updates : List (List ℕ × List CanSignal)) (s : ConcState) : Prop :=
  Relation.ReflTransGen ConcStep (concInit p updates) s

/-! ### Association-list helpers -/

theorem lookup_map_update (t : List (ℕ × CanMsg)) (k : ℕ) (data : List ℕ)
    (sig : List CanSignal) (now : ℚ) :
    (t.map (fun kv => if kv.1 = k then (kv.1, kv.2.update data sig now) else kv)).lookup k
      = (t.lookup k).map (fun v => v.update data sig now) := by
  induction t with
  | nil => rfl
  | cons hd tl ih =>
    obtain ⟨a, b⟩ := hd
    by_cases h : a = k
    · subst h
      simp [List.lookup_cons, ih]
    · have hk : (k == a) = false := beq_eq_false_iff_ne.mpr (Ne.symm h)
      simp [List.lookup_cons, if_neg h, hk, ih]

theorem lookup_append_of_none {t : List (ℕ × CanMsg)} {k : ℕ}
    (h : t.lookup k = none) (l : List (ℕ × CanMsg)) :
    (t ++ l).lookup k = l.lookup k := by
  induction t with
  | nil => rfl
  | cons hd tl ih =>
    obtain ⟨a, b⟩ := hd
    rw [List.lookup_cons] at h
    rw [show ((a, b) :: tl) ++ l = (a, b) :: (tl ++ l) from rfl, List.lookup_cons]
    cases hk : (k == a) with
    | true => simp [hk] at h
    | false => simp only [hk, if_false] at h ⊢; exact ih h

theorem lookup_eq_none_iff (t : List (ℕ × CanMsg)) (k : ℕ) :
    t.lookup k = none ↔ k ∉ t.map Prod.fst := by
  induction t with
  | nil => simp
  | cons hd tl ih =>
    obtain ⟨a, b⟩ := hd
    rw [List.lookup_cons]
    simp only [List.map_cons, List.mem_cons]
    cases hk : (k == a) with
    | true =>
      rw [beq_iff_eq] at hk
      simp [hk]
    | false =>
      rw [beq_eq_false_iff_ne] at hk
      simp [hk, ih]

theorem lookup_eq_some_iff_mem {t : List (ℕ × CanMsg)} {k : ℕ} {v : CanMsg}
    (hnd : (t.map Prod.fst).Nodup) : t.lookup k = some v ↔ (k, v) ∈ t := by
  induction t with
  | nil => simp
  | cons hd tl ih =>
    obtain ⟨a, b⟩ := hd
    simp only [List.map_cons, List.nodup_cons] at hnd
    rw [List.lookup_cons]
    simp only [List.mem_cons, Prod.mk.injEq]
    cases hk : (k == a) with
    | true =>
      rw [beq_iff_eq] at hk
      subst hk
      simp only [if_true]
      constructor
      · intro h
        rw [Option.some.injEq] at h
        exact Or.inl ⟨by trivial, h.symm⟩
      · rintro (⟨-, hv⟩ | h)
        · rw [hv]
        · exact absurd (List.mem_map_of_mem Prod.fst h) hnd.1
    | false =>
      rw [beq_eq_false_iff_ne] at hk
      simp only [if_false]
      rw [ih hnd.2]
      constructor
      · exact Or.inr
      · rintro (⟨he, -⟩ | h)
        · exact absurd he hk
        · exact h

/-! ### Claims -/

/-- C2: `applyFrame` on an id with no existing record inserts a new record
with `count = 1` and `delta = 0` (and `time = now`); on an id with an
existing record it overwrites payload and signals, sets
`delta = (now − previous time) * 1000` milliseconds, sets the timestamp to
`now`, and increments `count` by exactly one. -/
theorem applyFrame_fresh_and_update (t : List (ℕ × CanMsg)) (arbId : ℕ)
    (d : DecodedMsg) (dbc : CanDbcJson) (now : ℚ) :
    (t.lookup arbId = none →
      (applyFrame t arbId d dbc now).lookup arbId =
        some { id := d.id, data := d.raw_data, name := d.name,
               signals := canetonSignalsToObj d.id d.signals dbc,
               delta := 0, time := now, count := 1 }) ∧
    (∀ m : CanMsg, t.lookup arbId = some m →
      (applyFrame t arbId d dbc now).lookup arbId =
        some { id := m.id, data := d.raw_data, name := m.name,
               signals := canetonSignalsToObj d.id d.signals dbc,
               delta := (now - m.time) * 1000, time := now,
               count := m.count + 1 }) := by
  constructor
  · intro h
    have e : applyFrame t arbId d dbc now = t ++ [(arbId,
        CanMsg.make d.id d.raw_data d.name
          (canetonSignalsToObj d.id d.signals dbc) now)] := by
      unfold applyFrame
      rw [h]
    rw [e, lookup_append_of_none h, List.lookup_cons_self]
    rfl
  · intro m h
    have e : applyFrame t arbId d dbc now = t.map (fun kv =>
        if kv.1 = arbId then
          (kv.1, kv.2.update d.raw_data (canetonSignalsToObj d.id d.signals dbc) now)
        else kv) := by
      unfold applyFrame
      rw [h]
    rw [e, lookup_map_update, h]
    rfl

/-- C2 witness: a fresh insert at id 5 followed by an update of the same id. -/
theorem applyFrame_fresh_and_update_witness :
    (([] : List (ℕ × CanMsg)).lookup 5 = none ∧
      (applyFrame [] 5 ⟨5, some ("M"), [1, 2], []⟩ ⟨fun _ _ => none⟩ 2).lookup 5 =
        some { id := 5, data := [1, 2], name := some ("M"), signals := [],
               delta := 0, time := 2, count := 1 }) ∧
    ([(5, CanMsg.make 5 [1, 2] (some ("M")) [] 2)].lookup 5 =
        some (CanMsg.make 5 [1, 2] (some ("M")) [] 2) ∧
      (applyFrame [(5, CanMsg.make 5 [1, 2] (some ("M")) [] 2)] 5
          ⟨5, some ("M"), [3], []⟩ ⟨fun _ _ => none⟩ 4).lookup 5 =
        some { id := 5, data := [3], name := some ("M"), signals := [],
               delta := (4 - (2 : ℚ)) * 1000, time := 4, count := 2 }) := by
  refine ⟨⟨rfl, ?_⟩, ⟨rfl, ?_⟩⟩
  · have h := (applyFrame_fresh_and_update [] 5 ⟨5, some ("M"), [1, 2], []⟩
      ⟨fun _ _ => none⟩ 2).1 rfl
    simpa [canetonSignalsToObj] using h
  · have h := (applyFrame_fresh_and_update [(5, CanMsg.make 5 [1, 2] (some ("M")) [] 2)]
      5 ⟨5, some ("M"), [3], []⟩ ⟨fun _ _ => none⟩ 4).2
      (CanMsg.make 5 [1, 2] (some ("M")) [] 2) rfl
    simpa [canetonSignalsToObj, CanMsg.make] using h

/-- C1: when decoding raises (unknown message id or structurally
incompatible payload), the fallback result has `name = none`, `raw_data` =
the frame's payload and `id` = the frame's id, its converted signal list is
empty, and `applyFrame` still creates or updates a table record for that id
(payload set to the frame's payload, signal list empty) rather than
failing. -/
theorem unrecognized_frame_handling (t : List (ℕ × CanMsg)) (msg : Frame)
    (e : DecodeError) (dbc : CanDbcJson) (now : ℚ) :
    (decodeOrFallback (.error e) msg).name = none ∧
    (decodeOrFallback (.error e) msg).raw_data = msg.data ∧
    (decodeOrFallback (.error e) msg).id = msg.arbitration_id ∧
    canetonSignalsToObj (decodeOrFallback (.error e) msg).id
      (decodeOrFallback (.error e) msg).signals dbc = [] ∧
    ∃ r : CanMsg,
      (receiveCanStep t msg (.error e) dbc now).lookup msg.arbitration_id = some r ∧
      r.data = msg.data ∧ r.signals = [] := by
  refine ⟨rfl, rfl, rfl, rfl, ?_⟩
  cases h : t.lookup msg.arbitration_id with
  | none =>
    exact ⟨_, (applyFrame_fresh_and_update t msg.arbitration_id
      (decodeOrFallback (.error e) msg) dbc now).1 h, rfl, rfl⟩
  | some m =>
    exact ⟨_, (applyFrame_fresh_and_update t msg.arbitration_id
      (decodeOrFallback (.error e) msg) dbc now).2 m h, rfl, rfl⟩

/-- C3: enum substitution — with an enum table attached, the signal's value
becomes the table's display string exactly when the base-10 string of the
integer-truncated decoded value is a key of the table, and stays the
unchanged numeric value otherwise (also with no table); in the spec's
example, raw value 1 with table `[("1","ON"),("0","OFF")]` yields the
string "ON", not the integer 1, and truncation is toward zero
(`3.5 ↦ "3"`, `-3.5 ↦ "-3"`). -/
theorem enum_substitution (name : String) (v : NumVal) (unit : Option String)
    (table : List (String × String)) :
    ((CanSignal.make name v unit (some table)).value =
      match table.lookup (toString v.pyInt) with
      | some disp => .str disp
      | none => .num v) ∧
    (CanSignal.make name v unit none).value = .num v ∧
    (CanSignal.make ("sig") (.i 1) none (some [("1", "ON"), ("0", "OFF")])).value
      = .str ("ON") ∧
    (CanSignal.make ("sig") (.i 2) none (some [("1", "ON"), ("0", "OFF")])).value
      = .num (.i 2) ∧
    (CanSignal.make ("sig") (.f (7/2)) none (some [("3", "X")])).value = .str ("X") ∧
    (CanSignal.make ("sig") (.f (-(7/2))) none (some [("-3", "Y")])).value = .str ("Y") := by
  have htr : NumVal.pyInt (.f ((7:ℚ)/2)) = 3 := by
    show pyTrunc ((7:ℚ)/2) = 3
    rw [pyTrunc, if_pos (by norm_num : (0:ℚ) ≤ 7/2), Int.floor_eq_iff]
    constructor <;> norm_num
  have htr2 : NumVal.pyInt (.f (-((7:ℚ)/2))) = -3 := by
    show pyTrunc (-((7:ℚ)/2)) = -3
    rw [pyTrunc, if_neg (by norm_num : ¬(0:ℚ) ≤ -(7/2)), Int.ceil_eq_iff]
    constructor <;> norm_num
  refine ⟨?_, rfl, by decide, by decide, ?_, ?_⟩
  · cases table with
    | nil => rfl
    | cons hd tl => rfl
  · show decodeEnumsVal (some [("3", "X")]) (.f (7/2)) = .str ("X")
    simp only [decodeEnumsVal, htr]
    decide
  · show decodeEnumsVal (some [("-3", "Y")]) (.f (-(7/2))) = .str ("Y")
    simp only [decodeEnumsVal, htr2]
    decide

/-- C10: updating an existing record never changes its `id` or `name`
fields: `CanMsg.update` leaves them untouched, and at table level
`applyFrame` for an already-present id keeps the record's creation-time
`id` and `name` whatever name (even a different one) the new decode result
carries. -/
theorem update_preserves_id_name (t : List (ℕ × CanMsg)) (arbId : ℕ)
    (d : DecodedMsg) (dbc : CanDbcJson) (now : ℚ) :
    (∀ (m : CanMsg) (data : List ℕ) (sig : List CanSignal) (tm : ℚ),
      (m.update data sig tm).id = m.id ∧ (m.update data sig tm).name = m.name) ∧
    (∀ m : CanMsg, t.lookup arbId = some m →
      ∃ r : CanMsg, (applyFrame t arbId d dbc now).lookup arbId = some r ∧
        r.id = m.id ∧ r.name = m.name) := by
  constructor
  · intro m data sig tm
    exact ⟨rfl, rfl⟩
  · intro m h
    refine ⟨_, (applyFrame_fresh_and_update t arbId d dbc now).2 m h, rfl, rfl⟩

/-- C10 witness: a record created with `name = none` keeps `name = none`
through an `applyFrame` whose decode result carries `name = some ("OTHER")`. -/
theorem update_preserves_id_name_witness :
    [(7, CanMsg.make 7 [] none [] 1)].lookup 7 = some (CanMsg.make 7 [] none [] 1) ∧
    ∃ r : CanMsg,
      (applyFrame [(7, CanMsg.make 7 [] none [] 1)] 7 ⟨7, some ("OTHER"), [9], []⟩
          ⟨fun _ _ => none⟩ 3).lookup 7 = some r ∧
      r.id = 7 ∧ r.name = none := by
  refine ⟨rfl, ?_⟩
  exact (update_preserves_id_name [(7, CanMsg.make 7 [] none [] 1)] 7
    ⟨7, some ("OTHER"), [9], []⟩ ⟨fun _ _ => none⟩ 3).2
    (CanMsg.make 7 [] none [] 1) rfl

/-- C5: per-tick scroll offset changes before clamping — Down adds 1, Up
subtracts 1, Right / Page-Down / Space add the viewport height, Left /
Page-Up subtract it, any other key (including "no key", `-1`) leaves the
offset unchanged; and the loop condition becomes false exactly for `q`
(113) and Escape (27), the status-bar remap of `badKeys` onto `'0'` never
mapping any key onto a quit key. -/
theorem scroll_key_semantics (height y : ℤ) :
    guiTick height y keyDown = clampPadY height (y + 1) ∧
    guiTick height y keyUp = clampPadY height (y - 1) ∧
    guiTick height y keyRight = clampPadY height (y + height) ∧
    guiTick height y keyNPage = clampPadY height (y + height) ∧
    guiTick height y 32 = clampPadY height (y + height) ∧
    guiTick height y keyLeft = clampPadY height (y - height) ∧
    guiTick height y keyPPage = clampPadY height (y - height) ∧
    (∀ k : ℤ,
      k ∉ ([keyDown, keyUp, keyRight, keyNPage, 32, keyLeft, keyPPage] : List ℤ) →
      guiTick height y k = clampPadY height y) ∧
    guiContinue 113 = false ∧ guiContinue 27 = false ∧
    (∀ k : ℤ, guiContinue (displayKey k) = false ↔ (k = 113 ∨ k = 27)) := by
  refine ⟨rfl, by simp [guiTick, scrollDelta, keyUp, keyDown, sub_eq_add_neg],
    rfl, rfl, rfl,
    by simp [guiTick, scrollDelta, keyLeft, keyDown, keyUp, keyRight, keyNPage,
      keyPPage, sub_eq_add_neg],
    by simp [guiTick, scrollDelta, keyLeft, keyDown, keyUp, keyRight, keyNPage,
      keyPPage, sub_eq_add_neg],
    ?_, rfl, rfl, ?_⟩
  · intro k hk
    simp only [List.mem_cons, List.not_mem_nil, or_false, not_or] at hk
    obtain ⟨n1, n2, n3, n4, n5, n6, n7⟩ := hk
    simp [guiTick, scrollDelta, n1, n2, n3, n4, n5, n6, n7]
  · intro k
    by_cases hb : k = -1 ∨ k = 0 ∨ k = 9 ∨ k = 13 ∨ k = 10
    · have hd : displayKey k = 48 := by rw [displayKey, if_pos hb]
      rw [hd]
      constructor
      · intro h
        exact absurd h (by decide)
      · intro h
        rcases hb with h5 | h5 | h5 | h5 | h5 <;> subst h5 <;>
          exact absurd h (by decide)
    · have hd : displayKey k = k := by rw [displayKey, if_neg hb]
      rw [hd, guiContinue]
      by_cases hq : k = 113 ∨ k = 27
      · simp [hq]
      · simp [hq]

/-- C5 witness: an unmapped key (999) leaves the offset unchanged up to
clamping, and `q` stops the loop. -/
theorem scroll_key_semantics_witness :
    guiTick 24 3 999 = clampPadY 24 3 ∧
    (guiContinue (displayKey 113) = false ↔ ((113 : ℤ) = 113 ∨ (113 : ℤ) = 27)) := by
  constructor
  · exact (scroll_key_semantics 24 3).2.2.2.2.2.2.2.1 999 (by decide)
  · exact (scroll_key_semantics 24 3).2.2.2.2.2.2.2.2.2.2 113

theorem forward_clamp_iterate (height : ℤ) (h1 : 1 ≤ height)
    (h2 : height ≤ padHeight) :
    ∀ (n : ℕ) (y : ℤ), 0 ≤ y → y ≤ padHeight - height →
      (fun z => clampPadY height (z + height))^[n] y
        = min (padHeight - height) (y + n * height) := by
  have hB : 0 ≤ padHeight - height := sub_nonneg.mpr h2
  intro n
  induction n with
  | zero =>
    intro y h0 hy
    simp [min_eq_right hy]
  | succ n ih =>
    intro y h0 hy
    rw [Function.iterate_succ_apply]
    have hfy : clampPadY height (y + height) = min (padHeight - height) (y + height) := by
      rw [clampPadY, max_eq_right]
      exact le_min hB (by linarith)
    rw [hfy, ih (min (padHeight - height) (y + height))
      (le_min hB (by linarith)) (min_le_left _ _)]
    rcases le_total (y + height) (padHeight - height) with hc | hc
    · rw [min_eq_right hc]
      congr 1
      push_cast
      ring
    · rw [min_eq_left hc, min_eq_left (by nlinarith [Int.natCast_nonneg n]),
        min_eq_left (by push_cast; nlinarith [Int.natCast_nonneg n])]

/-- C6: after every tick the scroll offset lies in
`[0, max 0 (padHeight − height)]`, and from any starting offset, 5000 or
more page-forward events (any of the three page-forward keys) drive the
offset to exactly `padHeight − height`, a fixed point that further forward
events never pass. -/
theorem scroll_clamping (height : ℤ) (h1 : 1 ≤ height) (h2 : height ≤ padHeight) :
    (∀ y k : ℤ,
      0 ≤ guiTick height y k ∧ guiTick height y k ≤ max 0 (padHeight - height)) ∧
    (∀ k : ℤ, k = keyRight ∨ k = keyNPage ∨ k = 32 →
      (∀ (y : ℤ) (n : ℕ), 5000 ≤ n →
        (fun z => guiTick height z k)^[n] y = padHeight - height) ∧
      guiTick height (padHeight - height) k = padHeight - height) := by
  have hB : 0 ≤ padHeight - height := sub_nonneg.mpr h2
  have hclamp : ∀ x : ℤ, 0 ≤ clampPadY height x ∧
      clampPadY height x ≤ padHeight - height := by
    intro x
    exact ⟨le_max_left _ _, max_le hB (min_le_left _ _)⟩
  constructor
  · intro y k
    exact ⟨(hclamp _).1, le_trans (hclamp _).2 (le_max_right _ _)⟩
  · intro k hk
    have hdelta : scrollDelta k height = height := by
      rcases hk with h | h | h <;> subst h <;> rfl
    have hfun : (fun z => guiTick height z k)
        = (fun z => clampPadY height (z + height)) := by
      funext z
      rw [guiTick, hdelta]
    constructor
    · intro y n hn
      obtain ⟨m, rfl⟩ : ∃ m, n = m + 1 := ⟨n - 1, by omega⟩
      rw [hfun, Function.iterate_succ_apply]
      rw [forward_clamp_iterate height h1 h2 m (clampPadY height (y + height))
        (hclamp _).1 (hclamp _).2]
      have hm : (4999 : ℤ) ≤ (m : ℤ) := by exact_mod_cast by omega
      have hmh : (m : ℤ) ≤ (m : ℤ) * height := le_mul_of_one_le_right (by linarith) h1
      rw [min_eq_left (by have := (hclamp (y + height)).1; unfold padHeight at h2 ⊢; linarith)]
    · rw [guiTick, hdelta, clampPadY, min_eq_left (by linarith), max_eq_right hB]

/-- C6 witness: with viewport height 24, forward-paging 5000 times from
offset −17 lands exactly on `padHeight − 24`, and a tick result is within
the clamp range. -/
theorem scroll_clamping_witness :
    0 ≤ guiTick 24 (-17) 261 ∧
    (fun z => guiTick 24 z 261)^[5000] (-17) = padHeight - 24 := by
  have h := scroll_clamping 24 (by decide) (by decide)
  exact ⟨(h.1 (-17) 261).1, (h.2 261 (Or.inl rfl)).1 (-17) 5000 (by decide)⟩

/-- C8 counterexample: a `CanMsg` does not carry a first-seen timestamp
that later frames leave unchanged.  Two histories that create the record at
different first-seen times (0 and 5) but then update it at the same times
(1 then 3) end in *identical* records, so no component of the record
retains the first-seen time; moreover a single update already overwrites
the record's only timestamp field. -/
theorem canMsg_no_first_seen_counterexample :
    ((CanMsg.make 1 [] none [] 0).update [] [] 1).update [] [] 3 =
      ((CanMsg.make 1 [] none [] 5).update [] [] 1).update [] [] 3 ∧
    (0 : ℚ) ≠ 5 ∧
    ((CanMsg.make 1 [] none [] 0).update [] [] 1).time ≠ (CanMsg.make 1 [] none [] 0).time := by
  refine ⟨?_, by norm_num, ?_⟩
  · simp [CanMsg.make, CanMsg.update]
  · simp only [CanMsg.make, CanMsg.update]
    norm_num

/-- C7: the render body lists records in ascending numeric id order —
`sortedKeys` is sorted and is a permutation of the table's keys — and is
independent of insertion order: permuting a table whose keys are
duplicate-free leaves `renderBody` unchanged. -/
theorem render_ascending_order (t : List (ℕ × CanMsg)) :
    (sortedKeys t).Sorted (· ≤ ·) ∧
    (sortedKeys t).Perm (t.map Prod.fst) ∧
    (∀ t2 : List (ℕ × CanMsg), (t.map Prod.fst).Nodup → t.Perm t2 →
      renderBody t = renderBody t2) := by
  refine ⟨List.sorted_insertionSort _ _, List.perm_insertionSort _ _, ?_⟩
  intro t2 hnd hp
  have hnd2 : (t2.map Prod.fst).Nodup := ((hp.map Prod.fst).nodup_iff).mp hnd
  have hks : sortedKeys t = sortedKeys t2 :=
    @List.eq_of_perm_of_sorted ℕ (· ≤ ·) _ _ _
      ((List.perm_insertionSort _ _).trans
        ((hp.map Prod.fst).trans (List.perm_insertionSort _ _).symm))
      (List.sorted_insertionSort _ _) (List.sorted_insertionSort _ _)
  have hlk : ∀ id : ℕ, t.lookup id = t2.lookup id := by
    intro id
    cases h : t.lookup id with
    | some v =>
      exact ((lookup_eq_some_iff_mem hnd2).mpr
        (hp.subset ((lookup_eq_some_iff_mem hnd).mp h))).symm
    | none =>
      exact ((lookup_eq_none_iff t2 id).mpr (fun hm =>
        (lookup_eq_none_iff t id).mp h ((hp.map Prod.fst).mem_iff.mpr hm))).symm
  rw [renderBody, renderBody, hks]
  simp only [hlk]

/-- C7 witness: the body of a two-record table does not depend on which of
the two ids was inserted first. -/
theorem render_ascending_order_witness :
    renderBody [(2, CanMsg.make 2 [] none [] 0), (1, CanMsg.make 1 [] none [] 0)]
      = renderBody [(1, CanMsg.make 1 [] none [] 0), (2, CanMsg.make 2 [] none [] 0)] := by
  exact (render_ascending_order _).2.2 _ (by decide)
    (List.Perm.swap (1, CanMsg.make 1 [] none [] 0) (2, CanMsg.make 2 [] none [] 0) [])

/-- C8 (amended): every `CanMsg` carries a single timestamp field, set to
`now` at creation and overwritten with `now` (while `delta` records the
elapsed milliseconds) by each subsequent frame for the id; no separate
first-seen timestamp is retained. -/
theorem canMsg_single_timestamp (id : ℕ) (data : List ℕ) (name : Option String)
    (sig : List CanSignal) (t0 : ℚ) (d2 : List ℕ) (s2 : List CanSignal) (t1 : ℚ) :
    (CanMsg.make id data name sig t0).time = t0 ∧
    ((CanMsg.make id data name sig t0).update d2 s2 t1).time = t1 ∧
    ((CanMsg.make id data name sig t0).update d2 s2 t1).delta = (t1 - t0) * 1000 := by
  exact ⟨rfl, rfl, rfl⟩

/-! ### Snapshot atomicity (for C4) -/

/-- The payload/signal pairs a snapshot may legitimately contain: the
initial pair or the pair of one single update. -/
def committedPairs (p : List ℕ × List CanSignal)
    (updates : List (List ℕ × List CanSignal)) : List (List ℕ × List CanSignal) :=
  p :: updates

/-- Inductive invariant of the interleaving model: the lock discipline ties
each thread's critical-section program counter to lock ownership, the
record pair is committed whenever the writer is not between its two writes,
and everything observed is committed. -/
def ConcInv (p : List ℕ × List CanSignal)
    (updates : List (List ℕ × List CanSignal)) (s : ConcState) : Prop :=
  (∀ u ∈ s.pending, u ∈ updates) ∧
  (match s.wpc with
   | .idle => (s.data, s.signals) ∈ committedPairs p updates
   | .writeData d sig => s.lock = .writer ∧ (d, sig) ∈ updates ∧
       (s.data, s.signals) ∈ committedPairs p updates
   | .writeSignals sig => s.lock = .writer ∧ (s.data, sig) ∈ updates
   | .unlock => s.lock = .writer ∧ (s.data, s.signals) ∈ committedPairs p updates) ∧
  (match s.rpc with
   | .idle => True
   | .copy => s.lock = .reader
   | .unlock => s.lock = .reader) ∧
  (∀ o ∈ s.observed, o ∈ committedPairs p updates)

theorem concInv_init (p : List ℕ × List CanSignal)
    (updates : List (List ℕ × List CanSignal)) :
    ConcInv p updates (concInit p updates) := by
  refine ⟨fun u hu => hu, ?_, trivial, fun o ho => absurd ho (List.not_mem_nil o)⟩
  show (p.1, p.2) ∈ committedPairs p updates
  rw [committedPairs]
  exact List.mem_cons_self _ _

theorem concInv_step {p : List ℕ × List CanSignal}
    {updates : List (List ℕ × List CanSignal)} {s s2 : ConcState}
    (hs : ConcInv p updates s) (hstep : ConcStep s s2) : ConcInv p updates s2 := by
  obtain ⟨hpend, hw, hr, hobs⟩ := hs
  cases hstep with
  | wAcquire u rest hwpc hlock hpending =>
    simp only [hwpc] at hw
    refine ⟨fun v hv => hpend v (hpending ▸ List.mem_cons_of_mem u hv), ?_, ?_, hobs⟩
    · exact ⟨rfl, hpend u (hpending ▸ List.mem_cons_self u rest), hw⟩
    · cases hrpc : s.rpc with
      | idle => trivial
      | copy => rw [hrpc] at hr; rw [hr] at hlock; exact absurd hlock (by simp)
      | unlock => rw [hrpc] at hr; rw [hr] at hlock; exact absurd hlock (by simp)
  | wData d sig hwpc =>
    simp only [hwpc] at hw
    exact ⟨hpend, ⟨hw.1, hw.2.1⟩, hr, hobs⟩
  | wSignals sig hwpc =>
    simp only [hwpc] at hw
    refine ⟨hpend, ⟨hw.1, List.mem_cons_of_mem p hw.2⟩, hr, hobs⟩
  | wRelease hwpc =>
    simp only [hwpc] at hw
    refine ⟨hpend, hw.2, ?_, hobs⟩
    cases hrpc : s.rpc with
    | idle => trivial
    | copy => rw [hrpc] at hr; rw [hr] at hw; exact absurd hw.1 (by simp)
    | unlock => rw [hrpc] at hr; rw [hr] at hw; exact absurd hw.1 (by simp)
  | rAcquire hrpc hlock =>
    refine ⟨hpend, ?_, rfl, hobs⟩
    cases hwpc : s.wpc with
    | idle => simp only [hwpc] at hw; exact hw
    | writeData d sig => simp only [hwpc] at hw; rw [hw.1] at hlock; exact absurd hlock (by simp)
    | writeSignals sig => simp only [hwpc] at hw; rw [hw.1] at hlock; exact absurd hlock (by simp)
    | unlock => simp only [hwpc] at hw; rw [hw.1] at hlock; exact absurd hlock (by simp)
  | rCopy hrpc =>
    rw [hrpc] at hr
    have hidle : (s.data, s.signals) ∈ committedPairs p updates := by
      cases hwpc : s.wpc with
      | idle => simp only [hwpc] at hw; exact hw
      | writeData d sig => simp only [hwpc] at hw; rw [hr] at hw; exact absurd hw.1 (by simp)
      | writeSignals sig => simp only [hwpc] at hw; rw [hr] at hw; exact absurd hw.1 (by simp)
      | unlock => simp only [hwpc] at hw; rw [hr] at hw; exact absurd hw.1 (by simp)
    refine ⟨hpend, hw, hr, ?_⟩
    intro o ho
    rcases List.mem_append.mp ho with h1 | h1
    · exact hobs o h1
    · rw [List.mem_singleton.mp h1]
      exact hidle
  | rRelease hrpc =>
    rw [hrpc] at hr
    refine ⟨hpend, ?_, trivial, hobs⟩
    cases hwpc : s.wpc with
    | idle => simp only [hwpc] at hw; exact hw
    | writeData d sig => simp only [hwpc] at hw; rw [hr] at hw; exact absurd hw.1 (by simp)
    | writeSignals sig => simp only [hwpc] at hw; rw [hr] at hw; exact absurd hw.1 (by simp)
    | unlock => simp only [hwpc] at hw; rw [hr] at hw; exact absurd hw.1 (by simp)

theorem concInv_reachable {p : List ℕ × List CanSignal}
    {updates : List (List ℕ × List CanSignal)} {s : ConcState}
    (h : ConcReachable p updates s) : ConcInv p updates s := by
  induction h with
  | refl => exact concInv_init p updates
  | tail hsteps hstep ih => exact concInv_step ih hstep

/-- C4: under any interleaving of the lock-protected two-field update of
`receiveCan` with the lock-protected snapshot of `pcanCursesGui`, every
payload/signals pair a snapshot observes is the record's initial pair or
the pair of one single update — never the payload of one update combined
with the signal sequence of another. -/
theorem snapshot_atomicity (p : List ℕ × List CanSignal)
    (updates : List (List ℕ × List CanSignal)) (s : ConcState)
    (h : ConcReachable p updates s) :
    ∀ o ∈ s.observed, o = p ∨ o ∈ updates := by
  intro o ho
  have hc := (concInv_reachable h).2.2.2 o ho
  rw [committedPairs] at hc
  exact (List.mem_cons.mp hc).imp id id

/-- C4 witness: a full concrete interleaving — the writer ingests one
update (acquire, write payload, write signals, release), then the reader
snapshots — and the observed pair is exactly that update's pair. -/
theorem snapshot_atomicity_witness :
    ([1], ([] : List CanSignal)) = (([0], ([] : List CanSignal)) : List ℕ × List CanSignal)
      ∨ ([1], ([] : List CanSignal)) ∈ [([1], ([] : List CanSignal))] := by
  have h0 : ConcReachable ([0], ([] : List CanSignal)) [([1], [])]
      (concInit ([0], []) [([1], [])]) := .refl
  have h1 := Relation.ReflTransGen.tail h0 (ConcStep.wAcquire _ ([1], []) [] rfl rfl rfl)
  have h2 := Relation.ReflTransGen.tail h1 (ConcStep.wData _ [1] [] rfl)
  have h3 := Relation.ReflTransGen.tail h2 (ConcStep.wSignals _ [] rfl)
  have h4 := Relation.ReflTransGen.tail h3 (ConcStep.wRelease _ rfl)
  have h5 := Relation.ReflTransGen.tail h4 (ConcStep.rAcquire _ rfl rfl)
  have h6 := Relation.ReflTransGen.tail h5 (ConcStep.rCopy _ rfl)
  exact snapshot_atomicity ([0], []) [([1], [])] _ h6 ([1], [])
    (List.mem_singleton.mpr rfl)

/-! ### Formatting lemmas (for C9) -/

theorem digitChar_isDigit {d : ℕ} (h : d < 10) : (Nat.digitChar d).isDigit = true := by
  interval_cases d <;> decide

theorem hexCharUpper_isUpperHex {d : ℕ} (h : d < 16) :
    isUpperHexDigit (hexCharUpper d) = true := by
  interval_cases d <;> decide

theorem hexCharUpperVal_hexCharUpper {d : ℕ} (h : d < 16) :
    hexCharUpperVal (hexCharUpper d) = d := by
  interval_cases d <;> decide

theorem hexDigits_lt (n : ℕ) : ∀ d ∈ hexDigits n, d < 16 := by
  induction n using Nat.strong_induction_on with
  | _ n ih =>
    rw [hexDigits]
    by_cases h : n = 0
    · simp [h]
    · simp only [h, dite_false, List.mem_append, List.mem_singleton]
      rintro d (hd | rfl)
      · exact ih (n / 16) (Nat.div_lt_self (Nat.pos_of_ne_zero h) (by norm_num)) d hd
      · exact Nat.mod_lt n (by norm_num)

theorem hexVal_append (l : List ℕ) (d : ℕ) :
    hexVal (l ++ [d]) = hexVal l * 16 + d := by
  simp [hexVal, List.foldl_append]

theorem hexVal_hexDigits (n : ℕ) : hexVal (hexDigits n) = n := by
  induction n using Nat.strong_induction_on with
  | _ n ih =>
    rw [hexDigits]
    by_cases h : n = 0
    · simp [h, hexVal]
    · simp only [h, dite_false]
      rw [hexVal_append, ih (n / 16) (Nat.div_lt_self (Nat.pos_of_ne_zero h) (by norm_num))]
      omega

theorem fixed2_accuracy (q : ℚ) : |(fixed2 q : ℚ) / 100 - q| ≤ 1 / 200 := by
  have h := abs_sub_round (q * 100)
  rw [fixed2]
  have e : ((round (q * 100) : ℤ) : ℚ) / 100 - q
      = -((q * 100 - ((round (q * 100) : ℤ) : ℚ)) / 100) := by ring
  rw [e, abs_neg, abs_div, abs_of_pos (by norm_num : (0:ℚ) < 100)]
  linarith

theorem twoDigits_spec {k : ℕ} (h : k < 100) :
    (twoDigits k).length = 2 ∧ ∀ c ∈ (twoDigits k).data, c.isDigit = true := by
  refine ⟨rfl, ?_⟩
  intro c hc
  have hdata : (twoDigits k).data = [Nat.digitChar (k / 10), Nat.digitChar (k % 10)] := rfl
  rw [hdata] at hc
  simp only [List.mem_cons, List.not_mem_nil, or_false] at hc
  rcases hc with rfl | rfl
  · exact digitChar_isDigit (by omega)
  · exact digitChar_isDigit (by omega)

theorem byteHexUpper_spec {b : ℕ} (h : b < 256) :
    (byteHexUpper b).length = 2 ∧
    (∀ c ∈ (byteHexUpper b).data, isUpperHexDigit c = true) ∧
    hexCharUpperVal (hexCharUpper (b / 16)) * 16
      + hexCharUpperVal (hexCharUpper (b % 16)) = b := by
  have h1 : b / 16 < 16 := by omega
  have h2 : b % 16 < 16 := by omega
  refine ⟨rfl, ?_, ?_⟩
  · intro c hc
    have hdata : (byteHexUpper b).data
        = [hexCharUpper (b / 16), hexCharUpper (b % 16)] := rfl
    rw [hdata] at hc
    simp only [List.mem_cons, List.not_mem_nil, or_false] at hc
    rcases hc with rfl | rfl
    · exact hexCharUpper_isUpperHex h1
    · exact hexCharUpper_isUpperHex h2
  · rw [hexCharUpperVal_hexCharUpper h1, hexCharUpperVal_hexCharUpper h2]
    omega

/-- C9: rendering conventions of `CanMsg.__str__` / `CanSignal.__str__` —
the record line is built from `hexRepr` (hexadecimal id: its base-16 digits
decode back to the id), `payloadStr` (upper-case space-separated two-char
hex byte pairs, each pair decoding back to its byte), and `renderFixed2`
(exactly two decimal digits after the point, the printed value within
1/200 of the true value) for the timestamp and the delta; a float signal
value is rendered through the same two-decimal formatter. -/
theorem render_formatting (m : CanMsg) (q : ℚ) (n : ℕ) (data : List ℕ) (b : ℕ)
    (hb : b < 256) (hdata : ∀ x ∈ data, x < 256) :
    (CanMsg.str m =
      ljust (hexRepr m.id) 6 ++ " | " ++ ljust (m.name.getD ("")) 32 ++ " | "
        ++ ljust (payloadStr m.data) 42 ++ " | " ++ rjust (toString m.count) 7 ++ " | "
        ++ renderFixed2 m.time ++ " | " ++ rjust (renderFixed2 m.delta) 8
        ++ "\n" ++ String.intercalate ("\n") (m.signals.map CanSignal.str)
        ++ (if m.signals.isEmpty then "" else "\n")) ∧
    hexVal (hexDigits n) = n ∧
    (∀ d ∈ hexDigits n, d < 16) ∧
    payloadStr data = String.intercalate (" ") (data.map byteHexUpper) ∧
    (∀ x ∈ data, (byteHexUpper x).length = 2 ∧
      ∀ c ∈ (byteHexUpper x).data, isUpperHexDigit c = true) ∧
    hexCharUpperVal (hexCharUpper (b / 16)) * 16
      + hexCharUpperVal (hexCharUpper (b % 16)) = b ∧
    (renderFixed2 q =
      ((if fixed2 q < 0 then ("-") else ("")) ++ toString ((fixed2 q).natAbs / 100))
        ++ "." ++ twoDigits ((fixed2 q).natAbs % 100) ∧
      (twoDigits ((fixed2 q).natAbs % 100)).length = 2 ∧
      ∀ c ∈ (twoDigits ((fixed2 q).natAbs % 100)).data, c.isDigit = true) ∧
    |(fixed2 q : ℚ) / 100 - q| ≤ 1 / 200 ∧
    SigVal.pyStr (.num (.f q)) = renderFixed2 q := by
  have htwo := twoDigits_spec (k := (fixed2 q).natAbs % 100) (by omega)
  refine ⟨rfl, hexVal_hexDigits n, hexDigits_lt n, rfl, ?_, (byteHexUpper_spec hb).2.2,
    ⟨rfl, htwo.1, htwo.2⟩, fixed2_accuracy q, rfl⟩
  intro x hx
  exact ⟨(byteHexUpper_spec (hdata x hx)).1, (byteHexUpper_spec (hdata x hx)).2.1⟩

/-- C9 witness: the formatting facts evaluated at id `0x100`, payload byte
`0xAB`, payload `[0, 255]`. -/
theorem render_formatting_witness :
    (171 : ℕ) < 256 ∧
    hexVal (hexDigits 256) = 256 ∧
    hexCharUpperVal (hexCharUpper (171 / 16)) * 16
      + hexCharUpperVal (hexCharUpper (171 % 16)) = 171 := by
  have h := render_formatting (CanMsg.make 1 [] none [] 0) 0 256 [0, 255] 171
    (by decide) (by decide)
  exact ⟨by decide, h.2.1, h.2.2.2.2.2.1⟩

end Ppcan
